import Mathlib

/-!
Verification of the keyword-indexed matching engine of adblockpluscore
(lib/matcher.js): the single-category keyword index (Matcher) and the
CombinedMatcher composing a blocking index, an exception index and a
bounded result cache.

The JavaScript source is embedded shallowly:
* JS Map objects become insertion-ordered association lists; only bucket
  order is ever observable, map iteration order is not.
* Filter objects (from filterClasses.js, outside the embedded sources) are
  opaque records carrying the fields the matcher reads: text, the
  WhitelistFilter category test, and the isGeneric flag.  The external
  matches() capability becomes an explicit oracle parameter.
* The polymorphic bucket representation (a single Filter doubling as a
  one-element array via its length/[0] protocol) is modelled as a
  nonempty list, which is observably identical.
* JS strings become Lean strings; toLowerCase is modelled on ASCII, which
  is faithful for every character class the matcher inspects.
-/

/-! ### Association lists modelling JS Map -/

def alGet {α β : Type} [DecidableEq α] : List (α × β) → α → Option β
  | [], _ => none
  | (k, v) :: rest, k' => if k = k' then some v else alGet rest k'

def alSet {α β : Type} [DecidableEq α] : List (α × β) → α → β → List (α × β)
  | [], k, v => [(k, v)]
  | (k0, v0) :: rest, k, v =>
    if k0 = k then (k, v) :: rest else (k0, v0) :: alSet rest k v

def alDelete {α β : Type} [DecidableEq α] : List (α × β) → α → List (α × β)
  | [], _ => []
  | (k0, v0) :: rest, k => if k0 = k then rest else (k0, v0) :: alDelete rest k

section AListLemmas

variable {α β : Type} [DecidableEq α]

theorem alGet_eq_none_iff (m : List (α × β)) (k : α) :
    alGet m k = none ↔ ∀ p ∈ m, p.1 ≠ k := by
  induction m with
  | nil => simp [alGet]
  | cons p rest ih =>
    obtain ⟨k0, v0⟩ := p
    by_cases h : k0 = k <;> simp [alGet, h, ih]

theorem alGet_append_left (m m' : List (α × β)) (k : α) (v : β)
    (h : alGet m k = some v) : alGet (m ++ m') k = some v := by
  induction m with
  | nil => simp [alGet] at h
  | cons p rest ih =>
    obtain ⟨k0, v0⟩ := p
    by_cases hk : k0 = k <;> simp_all [alGet]

theorem alGet_append_right (m m' : List (α × β)) (k : α)
    (h : alGet m k = none) : alGet (m ++ m') k = alGet m' k := by
  induction m with
  | nil => simp
  | cons p rest ih =>
    obtain ⟨k0, v0⟩ := p
    by_cases hk : k0 = k <;> simp_all [alGet]

theorem alSet_of_absent (m : List (α × β)) (k : α) (v : β)
    (h : alGet m k = none) : alSet m k v = m ++ [(k, v)] := by
  induction m with
  | nil => simp [alSet]
  | cons p rest ih =>
    obtain ⟨k0, v0⟩ := p
    by_cases hk : k0 = k <;> simp_all [alGet, alSet]

theorem alGet_alSet_self (m : List (α × β)) (k : α) (v : β) :
    alGet (alSet m k v) k = some v := by
  induction m with
  | nil => simp [alSet, alGet]
  | cons p rest ih =>
    obtain ⟨k0, v0⟩ := p
    by_cases hk : k0 = k <;> simp [alSet, alGet, hk, ih]

theorem alGet_alSet_ne (m : List (α × β)) (k k' : α) (v : β) (h : k ≠ k') :
    alGet (alSet m k v) k' = alGet m k' := by
  induction m with
  | nil => simp [alSet, alGet, h]
  | cons p rest ih =>
    obtain ⟨k0, v0⟩ := p
    by_cases hk : k0 = k
    · subst hk; simp [alSet, alGet, h]
    · simp [alSet, alGet, hk, ih]

theorem alSet_same (m : List (α × β)) (k : α) (v : β)
    (h : alGet m k = some v) : alSet m k v = m := by
  induction m with
  | nil => simp [alGet] at h
  | cons p rest ih =>
    obtain ⟨k0, v0⟩ := p
    by_cases hk : k0 = k
    · subst hk
      simp [alGet] at h
      simp [alSet, h]
    · simp [alGet, hk] at h
      simp [alSet, hk, ih h]

theorem alDelete_append_of_absent (m : List (α × β)) (k : α) (v : β)
    (h : alGet m k = none) : alDelete (m ++ [(k, v)]) k = m := by
  induction m with
  | nil => simp [alDelete]
  | cons p rest ih =>
    obtain ⟨k0, v0⟩ := p
    by_cases hk : k0 = k <;> simp_all [alGet, alDelete]

theorem alGet_alDelete_ne (m : List (α × β)) (k k' : α) (h : k ≠ k') :
    alGet (alDelete m k) k' = alGet m k' := by
  induction m with
  | nil => simp [alDelete]
  | cons p rest ih =>
    obtain ⟨k0, v0⟩ := p
    by_cases hk : k0 = k
    · subst hk
      simp [alDelete, alGet, h]
    · have h' : k' ≠ k := Ne.symm h
      by_cases hk' : k0 = k' <;> simp [alDelete, alGet, hk, hk', h', ih]

theorem mem_alSet (m : List (α × β)) (k : α) (v : β) (q : α × β)
    (h : q ∈ alSet m k v) : q = (k, v) ∨ q ∈ m := by
  induction m with
  | nil => simpa [alSet] using h
  | cons p rest ih =>
    obtain ⟨k0, v0⟩ := p
    by_cases hk : k0 = k
    · subst hk; simp [alSet] at h
      rcases h with h | h
      · left; simp [h]
      · right; simp [h]
    · simp [alSet, hk] at h
      rcases h with h | h
      · right; simp [h]
      · rcases ih h with h' | h'
        · left; exact h'
        · right; simp [h']

theorem mem_alDelete (m : List (α × β)) (k : α) (q : α × β)
    (h : q ∈ alDelete m k) : q ∈ m := by
  induction m with
  | nil => simpa [alDelete] using h
  | cons p rest ih =>
    obtain ⟨k0, v0⟩ := p
    by_cases hk : k0 = k
    · subst hk; simp [alDelete] at h; simp [h]
    · simp [alDelete, hk] at h
      rcases h with h | h
      · simp [h]
      · simp [ih h]

theorem alGet_mem (m : List (α × β)) (k : α) (v : β)
    (h : alGet m k = some v) : (k, v) ∈ m := by
  induction m with
  | nil => simp [alGet] at h
  | cons p rest ih =>
    obtain ⟨k0, v0⟩ := p
    by_cases hk : k0 = k
    · subst hk; simp [alGet] at h; simp [h]
    · simp [alGet, hk] at h; simp [ih h]

theorem alGet_of_mem_nodupKeys (m : List (α × β)) (q : α × β)
    (hnd : (m.map Prod.fst).Nodup) (h : q ∈ m) : alGet m q.1 = some q.2 := by
  induction m with
  | nil => simp at h
  | cons p rest ih =>
    obtain ⟨k0, v0⟩ := p
    rw [List.map_cons, List.nodup_cons] at hnd
    rcases List.mem_cons.mp h with h | h
    · subst h; simp [alGet]
    · have hne : k0 ≠ q.1 := by
        intro he
        apply hnd.1
        rw [he]
        exact List.mem_map.mpr ⟨q, h, rfl⟩
      simp [alGet, hne, ih hnd.2 h]

theorem length_alSet_le (m : List (α × β)) (k : α) (v : β) :
    (alSet m k v).length ≤ m.length + 1 := by
  induction m with
  | nil => simp [alSet]
  | cons p rest ih =>
    obtain ⟨k0, v0⟩ := p
    by_cases hk : k0 = k <;> simp [alSet, hk] <;> omega

end AListLemmas

/-! ### Character classes and tokenization

The matcher tokenizes over the character class [a-z0-9%] after
lowercasing; findKeyword additionally treats the wildcard * as a
non-boundary character.  JS String.prototype.toLowerCase is modelled on
ASCII letters, which covers every character the tokenizers classify. -/

def lowerChar (c : Char) : Char :=
  if 'A' ≤ c && c ≤ 'Z' then Char.ofNat (c.toNat + 32) else c

def lowerList (cs : List Char) : List Char := cs.map lowerChar

def isTokenChar (c : Char) : Bool :=
  ('a' ≤ c && c ≤ 'z') || ('0' ≤ c && c ≤ '9') || c == '%'

/-- Tokenizer of Matcher.matchesAny and CombinedMatcher.matchesAnyInternal:
the global regex \x5ba-z0-9%\x5d{3,} over the lowercased URL, i.e. the maximal
runs of token characters of length at least 3, left to right.  The
accumulator holds the current run reversed. -/
def urlTokensGo : List Char → List Char → List String
  | [], cur => if 3 ≤ cur.length then [String.mk cur.reverse] else []
  | c :: cs, cur =>
    if isTokenChar c then urlTokensGo cs (c :: cur)
    else
      (if 3 ≤ cur.length then [String.mk cur.reverse] else []) ++ urlTokensGo cs []

def urlTokens (cs : List Char) : List String := urlTokensGo cs []

/-- Tokenizer of Matcher.findKeyword: the global regex
\x5b^a-z0-9%*\x5d\x5ba-z0-9%\x5d{3,}(?=\x5b^a-z0-9%*\x5d) over the lowercased rule
text, with the leading boundary character dropped from each match: the
maximal runs of token characters of length at least 3 whose neighbouring
characters on both sides exist and are neither token characters nor the
wildcard *.  The Boolean argument records whether the character preceding
the current run is such a boundary (false at the start of the string). -/
def kwTokensGo : Bool → List Char → List Char → List String
  | _, [], _ => []
  | prevOk, c :: cs, cur =>
    if isTokenChar c then kwTokensGo prevOk cs (c :: cur)
    else
      (if prevOk && 3 ≤ cur.length && c != '*' then [String.mk cur.reverse] else []) ++
        kwTokensGo (!isTokenChar c && c != '*') cs []

def kwTokens (cs : List Char) : List String := kwTokensGo false cs []

namespace ABP

/-! ### Filters

Filter objects come from filterClasses.js, outside the embedded sources.
The matcher reads only: the text, whether the object is a WhitelistFilter
(the exception category), and isGeneric().  JS Map keys are object
identities; the fid field stands for the identity of separately created
filter objects.  The external matches() capability is passed to the
matching operations as an oracle of type Mtc. -/

structure Filter where
  fid : Nat
  text : String
  isWhitelist : Bool
  generic : Bool
deriving DecidableEq, Repr

abbrev Mtc := Filter → String → Nat → String → Bool → String → Bool

/-- Modelled from the spec: Filter.regexpRegExp lives in filterClasses.js,
which is not among the embedded sources.  Per the spec, findKeyword first
checks whether the rule text is recognized as a foreign/regex-style
pattern (not representable as fixed substrings): after an optional leading
exception marker, the text is delimited by slashes. -/
def isRegexpStyle (text : String) : Bool :=
  let cs := match text.data with
    | '@' :: '@' :: rest => rest
    | l => l
  match cs with
  | [] => false
  | [_] => false
  | c :: rest => c == '/' && rest.getLast! == '/'

/-- Modelled from the spec: Filter.optionsRegExp lives in filterClasses.js,
which is not among the embedded sources.  Per the spec, findKeyword strips
any trailing rule-option suffix, the text after an option-separator
marker; the marker is the last dollar sign of the rule text. -/
def stripOptionsList : List Char → Option (List Char)
  | [] => none
  | c :: cs =>
    match stripOptionsList cs with
    | some rest => some (c :: rest)
    | none => if c == '$' then some [] else none

def stripOptions (text : String) : String :=
  match stripOptionsList text.data with
  | some rest => String.mk rest
  | none => text

/-- The two-character whitelist marker stripped by findKeyword; this test
is in the embedded source itself (text\x5b0\x5d == "@" && text\x5b1\x5d == "@"). -/
def stripExceptionMarker (cs : List Char) : List Char :=
  match cs with
  | '@' :: '@' :: rest => rest
  | l => l

/-! ### The keyword index (Matcher) -/

structure Matcher where
  filterByKeyword : List (String × List Filter)
  keywordByFilter : List (Filter × String)
deriving DecidableEq, Repr

def Matcher.clear : Matcher := ⟨[], []⟩

def bucketCount (m : Matcher) (kw : String) : Nat :=
  match alGet m.filterByKeyword kw with
  | some l => l.length
  | none => 0

/-- The candidate-selection loop of findKeyword: state (result, resultCount,
resultLength), updated when count < resultCount or (count == resultCount
and the candidate is longer). -/
def findKeywordGo (m : Matcher) : List String → String → Nat → Nat → String
  | [], res, _, _ => res
  | c :: rest, res, rc, rl =>
    let count := bucketCount m c
    if count < rc || (count == rc && rl < c.length) then
      findKeywordGo m rest c count c.length
    else
      findKeywordGo m rest res rc rl

/-- Matcher.findKeyword: empty keyword for regex-style text, otherwise
strip the option suffix and the whitelist marker, tokenize the lowercased
text with boundary anchoring, and pick the candidate with the smallest
bucket, ties broken by length.  The initial resultCount is the source's
0xFFFFFF sentinel. -/
def Matcher.findKeyword (m : Matcher) (f : Filter) : String :=
  if isRegexpStyle f.text then ""
  else
    let text := stripOptions f.text
    let text2 := stripExceptionMarker text.data
    findKeywordGo m (kwTokens (lowerList text2)) "" 0xFFFFFF 0

def Matcher.add (m : Matcher) (f : Filter) : Matcher :=
  if (alGet m.keywordByFilter f).isSome then m
  else
    let keyword := m.findKeyword f
    let fbk :=
      match alGet m.filterByKeyword keyword with
      | none => alSet m.filterByKeyword keyword [f]
      | some oldEntry => alSet m.filterByKeyword keyword (oldEntry ++ [f])
    { filterByKeyword := fbk, keywordByFilter := alSet m.keywordByFilter f keyword }

def Matcher.remove (m : Matcher) (f : Filter) : Matcher :=
  match alGet m.keywordByFilter f with
  | none => m
  | some keyword =>
    let list := (alGet m.filterByKeyword keyword).getD []
    let fbk :=
      if list.length ≤ 1 then alDelete m.filterByKeyword keyword
      else if f ∈ list then alSet m.filterByKeyword keyword (list.erase f)
      else m.filterByKeyword
    { filterByKeyword := fbk, keywordByFilter := alDelete m.keywordByFilter f }

def Matcher.hasFilter (m : Matcher) (f : Filter) : Bool :=
  (alGet m.keywordByFilter f).isSome

def Matcher.getKeywordForFilter (m : Matcher) (f : Filter) : Option String :=
  alGet m.keywordByFilter f

/-- The bucket scan of Matcher._checkEntryMatch: skip a filter when
specificOnly is set, the filter is generic and it is not a
WhitelistFilter; return the first remaining filter accepted by the
matches() oracle. -/
def checkList (mtc : Mtc) (specificOnly : Bool) (loc : String) (tm : Nat)
    (dd : String) (tp : Bool) (sk : String) : List Filter → Option Filter
  | [] => none
  | f :: rest =>
    if specificOnly && f.generic && !f.isWhitelist then
      checkList mtc specificOnly loc tm dd tp sk rest
    else if mtc f loc tm dd tp sk then some f
    else checkList mtc specificOnly loc tm dd tp sk rest

def Matcher.checkEntryMatch (m : Matcher) (mtc : Mtc) (keyword : String)
    (loc : String) (tm : Nat) (dd : String) (tp : Bool) (sk : String)
    (specificOnly : Bool) : Option Filter :=
  match alGet m.filterByKeyword keyword with
  | none => none
  | some list => checkList mtc specificOnly loc tm dd tp sk list

/-- The candidate loop of Matcher.matchesAny: probe each candidate in
order and stop at the first hit. -/
def matchesAnyGo (m : Matcher) (mtc : Mtc) (loc : String) (tm : Nat)
    (dd : String) (tp : Bool) (sk : String) (specificOnly : Bool) :
    List String → Option Filter
  | [] => none
  | c :: rest =>
    match m.checkEntryMatch mtc c loc tm dd tp sk specificOnly with
    | some r => some r
    | none => matchesAnyGo m mtc loc tm dd tp sk specificOnly rest

def Matcher.matchesAny (m : Matcher) (mtc : Mtc) (loc : String) (tm : Nat)
    (dd : String) (tp : Bool) (sk : String) (specificOnly : Bool) :
    Option Filter :=
  matchesAnyGo m mtc loc tm dd tp sk specificOnly
    (urlTokens (lowerList loc.data) ++ [""])

/-! ### The combined matcher -/

structure CombinedMatcher where
  blacklist : Matcher
  whitelist : Matcher
  resultCache : List (String × Option Filter)
deriving DecidableEq, Repr

/-- The state built by the CombinedMatcher constructor: two empty indexes
and an empty cache. -/
def CombinedMatcher.init : CombinedMatcher := ⟨Matcher.clear, Matcher.clear, []⟩

def CombinedMatcher.maxCacheEntries : Nat := 1000

def CombinedMatcher.clear (_ : CombinedMatcher) : CombinedMatcher :=
  CombinedMatcher.init

def CombinedMatcher.add (cm : CombinedMatcher) (f : Filter) : CombinedMatcher :=
  if f.isWhitelist then
    { cm with whitelist := cm.whitelist.add f, resultCache := [] }
  else
    { cm with blacklist := cm.blacklist.add f, resultCache := [] }

def CombinedMatcher.remove (cm : CombinedMatcher) (f : Filter) : CombinedMatcher :=
  if f.isWhitelist then
    { cm with whitelist := cm.whitelist.remove f, resultCache := [] }
  else
    { cm with blacklist := cm.blacklist.remove f, resultCache := [] }

def CombinedMatcher.findKeyword (cm : CombinedMatcher) (f : Filter) : String :=
  if f.isWhitelist then cm.whitelist.findKeyword f else cm.blacklist.findKeyword f

def CombinedMatcher.hasFilter (cm : CombinedMatcher) (f : Filter) : Bool :=
  if f.isWhitelist then cm.whitelist.hasFilter f else cm.blacklist.hasFilter f

def CombinedMatcher.getKeywordForFilter (cm : CombinedMatcher) (f : Filter) :
    Option String :=
  if f.isWhitelist then cm.whitelist.getKeywordForFilter f
  else cm.blacklist.getKeywordForFilter f

def CombinedMatcher.isSlowFilter (cm : CombinedMatcher) (f : Filter) : Bool :=
  let matcher := if f.isWhitelist then cm.whitelist else cm.blacklist
  if matcher.hasFilter f then
    decide ((matcher.getKeywordForFilter f).getD "" = "")
  else
    decide (matcher.findKeyword f = "")

/-- The candidate loop of CombinedMatcher.matchesAnyInternal.  For each
candidate the whitelist is probed first (the JS call omits the
specificOnly argument, so the whitelist probe runs with specificOnly
false); a whitelist hit returns immediately, while the first blacklist hit
is latched in blacklistHit and returned only after the whole pass. -/
def internalGo (bl wl : Matcher) (mtc : Mtc) (loc : String) (tm : Nat)
    (dd : String) (tp : Bool) (sk : String) (specificOnly : Bool) :
    List String → Option Filter → Option Filter
  | [], blacklistHit => blacklistHit
  | c :: rest, blacklistHit =>
    match wl.checkEntryMatch mtc c loc tm dd tp sk false with
    | some r => some r
    | none =>
      let bh :=
        match blacklistHit with
        | some r => some r
        | none => bl.checkEntryMatch mtc c loc tm dd tp sk specificOnly
      internalGo bl wl mtc loc tm dd tp sk specificOnly rest bh

def CombinedMatcher.matchesAnyInternal (cm : CombinedMatcher) (mtc : Mtc)
    (loc : String) (tm : Nat) (dd : String) (tp : Bool) (sk : String)
    (specificOnly : Bool) : Option Filter :=
  internalGo cm.blacklist cm.whitelist mtc loc tm dd tp sk specificOnly
    (urlTokens (lowerList loc.data) ++ [""]) none

/-- The cache key of CombinedMatcher.matchesAny: the match parameters
joined as text with the space delimiter, numbers in decimal and Booleans
as the JS words true/false. -/
def cacheKey (loc : String) (tm : Nat) (dd : String) (tp : Bool) (sk : String)
    (specificOnly : Bool) : String :=
  loc ++ " " ++ Nat.repr tm ++ " " ++ dd ++ " " ++
    (if tp then "true" else "false") ++ " " ++ sk ++ " " ++
    (if specificOnly then "true" else "false")

/-- CombinedMatcher.matchesAny: consult the cache; on a miss compute via
matchesAnyInternal, clear the whole cache first when it has reached
maxCacheEntries, and store the new entry.  Returns the result together
with the successor state. -/
def CombinedMatcher.matchesAny (cm : CombinedMatcher) (mtc : Mtc)
    (loc : String) (tm : Nat) (dd : String) (tp : Bool) (sk : String)
    (specificOnly : Bool) : Option Filter × CombinedMatcher :=
  let key := cacheKey loc tm dd tp sk specificOnly
  match alGet cm.resultCache key with
  | some result => (result, cm)
  | none =>
    let result := cm.matchesAnyInternal mtc loc tm dd tp sk specificOnly
    let cache :=
      if CombinedMatcher.maxCacheEntries ≤ cm.resultCache.length then []
      else cm.resultCache
    (result, { cm with resultCache := alSet cache key result })

/-! ### Operation sequences, for reachability statements -/

inductive MOp where
  | clearOp : MOp
  | addOp : Filter → MOp
  | removeOp : Filter → MOp
deriving DecidableEq, Repr

def Matcher.step (m : Matcher) : MOp → Matcher
  | .clearOp => Matcher.clear
  | .addOp f => m.add f
  | .removeOp f => m.remove f

/-- The states of a Matcher reachable by a sequence of clear, add and
remove calls, starting from the constructor state (which itself calls
clear). -/
def runMOps (ops : List MOp) : Matcher :=
  ops.foldl Matcher.step Matcher.clear

inductive COp where
  | clearOp : COp
  | addOp : Filter → COp
  | removeOp : Filter → COp
  | queryOp : String → Nat → String → Bool → String → Bool → COp
deriving DecidableEq, Repr

def CombinedMatcher.step (mtc : Mtc) (cm : CombinedMatcher) : COp → CombinedMatcher
  | .clearOp => cm.clear
  | .addOp f => cm.add f
  | .removeOp f => cm.remove f
  | .queryOp loc tm dd tp sk so => (cm.matchesAny mtc loc tm dd tp sk so).2

/-- The states of a CombinedMatcher reachable by a sequence of clear, add,
remove and matchesAny calls starting from the constructor state. -/
def runCOps (mtc : Mtc) (ops : List COp) : CombinedMatcher :=
  ops.foldl (CombinedMatcher.step mtc) CombinedMatcher.init

/-! ### Declarative formulations of tokenization and bucket scanning

These definitions follow the words of the specification (maximal runs kept
when long enough, first eligible match of a bucket) and are proved equal
to the loop implementations above. -/

/-- Maximal runs of token characters, in left-to-right order, keeping the
runs of length at least 3: the declarative reading of the URL tokenizer. -/
def specTokens : List Char → List String
  | [] => []
  | c :: cs =>
    if isTokenChar c then
      (if 3 ≤ ((c :: cs).takeWhile isTokenChar).length then
        [String.mk ((c :: cs).takeWhile isTokenChar)] else []) ++
        specTokens ((c :: cs).dropWhile isTokenChar)
    else specTokens cs
termination_by cs => cs.length
decreasing_by
  · rename_i h
    simp only [List.dropWhile_cons, h, if_true, List.length_cons]
    exact Nat.lt_succ_of_le (List.Sublist.length_le (List.dropWhile_sublist isTokenChar))
  · simp

theorem specTokens_flush (cs : List Char) :
    specTokens cs =
      (if 3 ≤ (cs.takeWhile isTokenChar).length then
        [String.mk (cs.takeWhile isTokenChar)] else []) ++
        specTokens (cs.dropWhile isTokenChar) := by
  match cs with
  | [] => simp [specTokens]
  | c :: cs =>
    by_cases h : isTokenChar c
    · rw [specTokens]
      simp [h]
    · simp [List.takeWhile_cons, List.dropWhile_cons, h]

theorem urlTokensGo_eq (cs : List Char) : ∀ acc : List Char,
    urlTokensGo cs acc =
      (if 3 ≤ (acc.reverse ++ cs.takeWhile isTokenChar).length then
        [String.mk (acc.reverse ++ cs.takeWhile isTokenChar)] else []) ++
        specTokens (cs.dropWhile isTokenChar) := by
  induction cs with
  | nil =>
    intro acc
    simp [urlTokensGo, specTokens]
  | cons c cs ih =>
    intro acc
    by_cases h : isTokenChar c
    · rw [urlTokensGo]
      simp only [h, if_true, ih (c :: acc), List.takeWhile_cons,
        List.dropWhile_cons, List.reverse_cons]
      simp [List.append_assoc]
    · rw [urlTokensGo]
      simp only [h, Bool.false_eq_true, if_false, ih [], List.takeWhile_cons,
        List.dropWhile_cons, List.reverse_nil, List.nil_append]
      rw [← specTokens_flush cs]
      simp [specTokens, h]

theorem urlTokens_eq_specTokens (cs : List Char) :
    urlTokens cs = specTokens cs := by
  rw [urlTokens, urlTokensGo_eq cs []]
  simp only [List.reverse_nil, List.nil_append]
  rw [← specTokens_flush]

/-- A filter survives the specificOnly skip in a bucket scan exactly when
it is not a generic non-whitelist filter (whenever specificOnly is set). -/
def eligible (specificOnly : Bool) (f : Filter) : Bool :=
  !(specificOnly && f.generic && !f.isWhitelist)

theorem checkList_eq_find (mtc : Mtc) (so : Bool) (loc : String) (tm : Nat)
    (dd : String) (tp : Bool) (sk : String) (l : List Filter) :
    checkList mtc so loc tm dd tp sk l =
      l.find? (fun f => eligible so f && mtc f loc tm dd tp sk) := by
  induction l with
  | nil => simp [checkList]
  | cons f rest ih =>
    rw [checkList]
    by_cases hskip : (so && f.generic && !f.isWhitelist) = true
    · have : eligible so f = false := by simp [eligible, hskip]
      simp [hskip, ih, List.find?_cons, this]
    · have he : eligible so f = true := by
        simp only [eligible]
        simp only [Bool.not_eq_true] at hskip
        simp [hskip]
      by_cases hm : mtc f loc tm dd tp sk = true
      · simp [hskip, hm, List.find?_cons, he]
      · simp only [Bool.not_eq_true] at hm
        simp [hskip, hm, ih, List.find?_cons, he]

/-- Declarative probe of one keyword bucket: the first eligible filter of
the bucket accepted by the oracle. -/
def specProbe (m : Matcher) (mtc : Mtc) (so : Bool) (loc : String) (tm : Nat)
    (dd : String) (tp : Bool) (sk : String) (kw : String) : Option Filter :=
  (alGet m.filterByKeyword kw).bind fun l =>
    l.find? fun f => eligible so f && mtc f loc tm dd tp sk

theorem checkEntryMatch_eq_specProbe (m : Matcher) (mtc : Mtc) (kw : String)
    (loc : String) (tm : Nat) (dd : String) (tp : Bool) (sk : String)
    (so : Bool) :
    m.checkEntryMatch mtc kw loc tm dd tp sk so =
      specProbe m mtc so loc tm dd tp sk kw := by
  rw [Matcher.checkEntryMatch, specProbe]
  cases alGet m.filterByKeyword kw with
  | none => rfl
  | some l => simp [checkList_eq_find]

theorem matchesAnyGo_eq_findSome (m : Matcher) (mtc : Mtc) (loc : String)
    (tm : Nat) (dd : String) (tp : Bool) (sk : String) (so : Bool)
    (cands : List String) :
    matchesAnyGo m mtc loc tm dd tp sk so cands =
      cands.findSome? (specProbe m mtc so loc tm dd tp sk) := by
  induction cands with
  | nil => simp [matchesAnyGo]
  | cons c rest ih =>
    rw [matchesAnyGo, checkEntryMatch_eq_specProbe, List.findSome?_cons]
    cases specProbe m mtc so loc tm dd tp sk c with
    | none => simpa using ih
    | some r => simp

/-! ### Precedence structure of matchesAnyInternal -/

/-- Characterization of the candidate loop of matchesAnyInternal: the
result is the first whitelist probe hit across the candidates; only when
no candidate yields one is the latched blacklist hit (the first one found
during the same pass) returned. -/
theorem internalGo_eq (bl wl : Matcher) (mtc : Mtc) (loc : String) (tm : Nat)
    (dd : String) (tp : Bool) (sk : String) (so : Bool) (cands : List String) :
    ∀ bh : Option Filter,
    internalGo bl wl mtc loc tm dd tp sk so cands bh =
      match cands.findSome? (fun c => wl.checkEntryMatch mtc c loc tm dd tp sk false) with
      | some e => some e
      | none =>
        bh.or (cands.findSome? (fun c => bl.checkEntryMatch mtc c loc tm dd tp sk so)) := by
  induction cands with
  | nil =>
    intro bh
    simp [internalGo, List.findSome?_nil]
  | cons c rest ih =>
    intro bh
    simp only [internalGo]
    rw [List.findSome?_cons]
    cases hwl : wl.checkEntryMatch mtc c loc tm dd tp sk false with
    | some e => simp
    | none =>
      simp only
      rw [List.findSome?_cons]
      cases bh with
      | some r =>
        simp only [ih]
        cases rest.findSome? (fun c => wl.checkEntryMatch mtc c loc tm dd tp sk false) <;> simp
      | none =>
        simp only [ih]
        cases hbl : bl.checkEntryMatch mtc c loc tm dd tp sk so with
        | some r =>
          cases rest.findSome? (fun c => wl.checkEntryMatch mtc c loc tm dd tp sk false) <;> simp
        | none =>
          cases rest.findSome? (fun c => wl.checkEntryMatch mtc c loc tm dd tp sk false) <;> simp

theorem matchesAnyInternal_eq (cm : CombinedMatcher) (mtc : Mtc) (loc : String)
    (tm : Nat) (dd : String) (tp : Bool) (sk : String) (so : Bool) :
    cm.matchesAnyInternal mtc loc tm dd tp sk so =
      match (urlTokens (lowerList loc.data) ++ [""]).findSome?
          (fun c => cm.whitelist.checkEntryMatch mtc c loc tm dd tp sk false) with
      | some e => some e
      | none =>
        (urlTokens (lowerList loc.data) ++ [""]).findSome?
          (fun c => cm.blacklist.checkEntryMatch mtc c loc tm dd tp sk so) := by
  rw [CombinedMatcher.matchesAnyInternal, internalGo_eq]
  cases (urlTokens (lowerList loc.data) ++ [""]).findSome?
      (fun c => cm.whitelist.checkEntryMatch mtc c loc tm dd tp sk false) <;> simp

theorem findSome?_ite_mem {α β : Type} [DecidableEq α] (l : List α) (a : α)
    (e : β) (h : a ∈ l) :
    l.findSome? (fun c => if a = c then some e else none) = some e := by
  induction l with
  | nil => simp at h
  | cons c rest ih =>
    rw [List.findSome?_cons]
    by_cases hc : a = c
    · simp [hc]
    · have : a ∈ rest := by
        rcases List.mem_cons.mp h with h' | h'
        · exact absurd h' hc
        · exact h'
      simp [hc, ih this]

theorem find?_filter_and {α : Type} (l : List α) (p q : α → Bool) :
    (l.filter p).find? q = l.find? (fun x => p x && q x) := by
  induction l with
  | nil => simp
  | cons x rest ih =>
    by_cases hp : p x = true
    · by_cases hq : q x = true
      · simp [List.filter_cons, hp, List.find?_cons, hq]
      · simp only [Bool.not_eq_true] at hq
        simp [List.filter_cons, hp, List.find?_cons, hq, ih]
    · simp only [Bool.not_eq_true] at hp
      simp [List.filter_cons, hp, List.find?_cons, ih]

theorem add_on_clear (f : Filter) :
    Matcher.clear.add f =
      ⟨[(Matcher.clear.findKeyword f, [f])], [(f, Matcher.clear.findKeyword f)]⟩ := by
  simp [Matcher.add, Matcher.clear, alGet, alSet]

/-- C1: exception precedence in CombinedMatcher.  If some candidate
token's probe of the exception index yields a hit, matchesAnyInternal
returns the first such hit; a blocking rule is returned only when no
candidate across the whole token pass yields an exception hit.  In
particular, for a block rule B and an exception rule E both matching URL
U, where E's keyword is among U's candidates, after adding both in either
order matchesAny on U returns E and never B. -/
theorem C1_exception_precedence :
    (∀ (cm : CombinedMatcher) (mtc : Mtc) (loc : String) (tm : Nat)
        (dd : String) (tp : Bool) (sk : String) (so : Bool) (e : Filter),
      (urlTokens (lowerList loc.data) ++ [""]).findSome?
          (fun c => cm.whitelist.checkEntryMatch mtc c loc tm dd tp sk false) = some e →
      cm.matchesAnyInternal mtc loc tm dd tp sk so = some e)
    ∧
    (∀ (cm : CombinedMatcher) (mtc : Mtc) (loc : String) (tm : Nat)
        (dd : String) (tp : Bool) (sk : String) (so : Bool),
      (urlTokens (lowerList loc.data) ++ [""]).findSome?
          (fun c => cm.whitelist.checkEntryMatch mtc c loc tm dd tp sk false) = none →
      cm.matchesAnyInternal mtc loc tm dd tp sk so =
        (urlTokens (lowerList loc.data) ++ [""]).findSome?
          (fun c => cm.blacklist.checkEntryMatch mtc c loc tm dd tp sk so))
    ∧
    (∀ (mtc : Mtc) (B E : Filter) (loc : String) (tm : Nat) (dd : String)
        (tp : Bool) (sk : String) (so : Bool),
      B.isWhitelist = false → E.isWhitelist = true →
      mtc B loc tm dd tp sk = true → mtc E loc tm dd tp sk = true →
      Matcher.clear.findKeyword E ∈ urlTokens (lowerList loc.data) ++ [""] →
      (((CombinedMatcher.init.add B).add E).matchesAny mtc loc tm dd tp sk so).1
          = some E ∧
      (((CombinedMatcher.init.add E).add B).matchesAny mtc loc tm dd tp sk so).1
          = some E ∧
      some E ≠ some B) := by
  refine ⟨?_, ?_, ?_⟩
  · intro cm mtc loc tm dd tp sk so e h
    rw [matchesAnyInternal_eq, h]
  · intro cm mtc loc tm dd tp sk so h
    rw [matchesAnyInternal_eq, h]
  · intro mtc B E loc tm dd tp sk so hB hE hmB hmE hkw
    have hstate1 : (CombinedMatcher.init.add B).add E =
        ⟨Matcher.clear.add B, Matcher.clear.add E, []⟩ := by
      simp [CombinedMatcher.add, CombinedMatcher.init, hB, hE]
    have hstate2 : (CombinedMatcher.init.add E).add B =
        ⟨Matcher.clear.add B, Matcher.clear.add E, []⟩ := by
      simp [CombinedMatcher.add, CombinedMatcher.init, hB, hE]
    have hprobe : ∀ c : String,
        (Matcher.clear.add E).checkEntryMatch mtc c loc tm dd tp sk false =
          if Matcher.clear.findKeyword E = c then some E else none := by
      intro c
      rw [add_on_clear, Matcher.checkEntryMatch]
      by_cases hc : Matcher.clear.findKeyword E = c
      · simp [alGet, hc, checkList, hmE]
      · simp [alGet, hc]
    have hint : ∀ cm : CombinedMatcher, cm.whitelist = Matcher.clear.add E →
        cm.matchesAnyInternal mtc loc tm dd tp sk so = some E := by
      intro cm hwl
      rw [matchesAnyInternal_eq, hwl]
      simp only [hprobe]
      rw [findSome?_ite_mem _ _ _ hkw]
    have hne : some E ≠ some B := by
      intro h
      have : E = B := Option.some.inj h
      rw [this, hB] at hE
      exact Bool.false_ne_true hE
    refine ⟨?_, ?_, hne⟩
    · rw [hstate1, CombinedMatcher.matchesAny]
      simp only [alGet]
      exact hint ⟨Matcher.clear.add B, Matcher.clear.add E, []⟩ rfl
    · rw [hstate2, CombinedMatcher.matchesAny]
      simp only [alGet]
      exact hint ⟨Matcher.clear.add B, Matcher.clear.add E, []⟩ rfl

theorem C1_witness :
    (((CombinedMatcher.init.add ⟨0, "&banner&", false, false⟩).add
        ⟨1, "&advert&", true, false⟩).matchesAny
      (fun _ _ _ _ _ _ => true) "x.advert.zzz" 1 "d" false "" false).1 =
      some ⟨1, "&advert&", true, false⟩ :=
  (C1_exception_precedence.2.2 (fun _ _ _ _ _ _ => true)
    ⟨0, "&banner&", false, false⟩ ⟨1, "&advert&", true, false⟩
    "x.advert.zzz" 1 "d" false "" false rfl rfl rfl rfl (by decide)).1

/-- C2: Matcher.matchesAny returns the first match in token order: the
lowercased URL is cut into the maximal runs of alphanumeric/percent
characters of length at least 3 in left-to-right order, the empty string
is appended as the final candidate, each candidate's bucket is scanned in
insertion order, and the first filter passing the eligibility skip and the
matches() oracle wins; no most-specific selection takes place. -/
theorem C2_first_match_in_token_order (m : Matcher) (mtc : Mtc) (loc : String)
    (tm : Nat) (dd : String) (tp : Bool) (sk : String) (so : Bool) :
    m.matchesAny mtc loc tm dd tp sk so =
      (specTokens (lowerList loc.data) ++ [""]).findSome?
        (specProbe m mtc so loc tm dd tp sk) := by
  rw [Matcher.matchesAny, matchesAnyGo_eq_findSome, urlTokens_eq_specTokens]

/-- C3: specificOnly suppression.  With specificOnly set, a bucket scan
skips exactly the generic non-whitelist filters (generic whitelist
filters stay eligible); a scan of a whitelist-only bucket is unaffected
by specificOnly; and in matchesAnyInternal the specificOnly flag reaches
only the blocking-index probes, the exception-index probes always running
with specificOnly false. -/
theorem C3_specificOnly_suppression :
    (∀ (mtc : Mtc) (loc : String) (tm : Nat) (dd : String) (tp : Bool)
        (sk : String) (l : List Filter),
      checkList mtc true loc tm dd tp sk l =
        (l.filter fun f => !(f.generic && !f.isWhitelist)).find?
          (fun f => mtc f loc tm dd tp sk))
    ∧
    (∀ (mtc : Mtc) (so : Bool) (loc : String) (tm : Nat) (dd : String)
        (tp : Bool) (sk : String) (l : List Filter),
      (∀ f ∈ l, f.isWhitelist = true) →
      checkList mtc so loc tm dd tp sk l = checkList mtc false loc tm dd tp sk l)
    ∧
    (∀ (cm : CombinedMatcher) (mtc : Mtc) (loc : String) (tm : Nat)
        (dd : String) (tp : Bool) (sk : String) (so : Bool),
      cm.matchesAnyInternal mtc loc tm dd tp sk so =
        match (urlTokens (lowerList loc.data) ++ [""]).findSome?
            (fun c => cm.whitelist.checkEntryMatch mtc c loc tm dd tp sk false) with
        | some e => some e
        | none =>
          (urlTokens (lowerList loc.data) ++ [""]).findSome?
            (fun c => cm.blacklist.checkEntryMatch mtc c loc tm dd tp sk so)) := by
  refine ⟨?_, ?_, ?_⟩
  · intro mtc loc tm dd tp sk l
    rw [checkList_eq_find, find?_filter_and]
    simp only [eligible, Bool.true_and]
  · intro mtc so loc tm dd tp sk l hwl
    induction l with
    | nil => simp [checkList]
    | cons f rest ih =>
      have hf : f.isWhitelist = true := hwl f (List.mem_cons_self f rest)
      have hrest : ∀ g ∈ rest, g.isWhitelist = true :=
        fun g hg => hwl g (List.mem_cons_of_mem f hg)
      rw [checkList, checkList]
      simp only [hf, Bool.not_true, Bool.and_false, Bool.false_and,
        Bool.false_eq_true, if_false, ih hrest]
  · intro cm mtc loc tm dd tp sk so
    exact matchesAnyInternal_eq cm mtc loc tm dd tp sk so

theorem C3_witness :
    checkList (fun _ _ _ _ _ _ => true) true "u" 0 "d" false ""
        [⟨2, "w", true, true⟩] =
      checkList (fun _ _ _ _ _ _ => true) false "u" 0 "d" false ""
        [⟨2, "w", true, true⟩] :=
  C3_specificOnly_suppression.2.1 (fun _ _ _ _ _ _ => true) true "u" 0 "d"
    false "" [⟨2, "w", true, true⟩] (by decide)

/-- C10: CombinedMatcher.add and CombinedMatcher.remove clear the result
cache unconditionally; when the routed inner index operation is a no-op
(adding an already tracked filter, removing an unknown one) both keyword
indexes are left unchanged while the cache is still emptied. -/
theorem C10_mutation_clears_cache :
    (∀ (cm : CombinedMatcher) (f : Filter),
      (cm.add f).resultCache = [] ∧ (cm.remove f).resultCache = [])
    ∧
    (∀ (cm : CombinedMatcher) (f : Filter),
      (alGet (if f.isWhitelist then cm.whitelist else cm.blacklist).keywordByFilter
          f).isSome = true →
      (cm.add f).blacklist = cm.blacklist ∧ (cm.add f).whitelist = cm.whitelist)
    ∧
    (∀ (cm : CombinedMatcher) (f : Filter),
      alGet (if f.isWhitelist then cm.whitelist else cm.blacklist).keywordByFilter
          f = none →
      (cm.remove f).blacklist = cm.blacklist ∧
        (cm.remove f).whitelist = cm.whitelist) := by
  refine ⟨?_, ?_, ?_⟩
  · intro cm f
    by_cases hw : f.isWhitelist = true <;>
      simp [CombinedMatcher.add, CombinedMatcher.remove, hw]
  · intro cm f h
    by_cases hw : f.isWhitelist = true
    · rw [hw] at h
      simp only [if_true] at h
      simp [CombinedMatcher.add, hw, Matcher.add, h]
    · simp only [Bool.not_eq_true] at hw
      rw [hw] at h
      simp only [Bool.false_eq_true, if_false] at h
      simp [CombinedMatcher.add, hw, Matcher.add, h]
  · intro cm f h
    by_cases hw : f.isWhitelist = true
    · rw [hw] at h
      simp only [if_true] at h
      simp [CombinedMatcher.remove, hw, Matcher.remove, h]
    · simp only [Bool.not_eq_true] at hw
      rw [hw] at h
      simp only [Bool.false_eq_true, if_false] at h
      simp [CombinedMatcher.remove, hw, Matcher.remove, h]

theorem C10_witness :
    ((CombinedMatcher.init.add ⟨0, "&abcd&", false, false⟩).add
        ⟨0, "&abcd&", false, false⟩).blacklist =
      (CombinedMatcher.init.add ⟨0, "&abcd&", false, false⟩).blacklist ∧
    ((CombinedMatcher.init.add ⟨0, "&abcd&", false, false⟩).add
        ⟨0, "&abcd&", false, false⟩).whitelist =
      (CombinedMatcher.init.add ⟨0, "&abcd&", false, false⟩).whitelist :=
  C10_mutation_clears_cache.2.1 (CombinedMatcher.init.add ⟨0, "&abcd&", false, false⟩)
    ⟨0, "&abcd&", false, false⟩ (by decide)

theorem step_cache_bound (mtc : Mtc) (cm : CombinedMatcher) (op : COp)
    (h : cm.resultCache.length ≤ CombinedMatcher.maxCacheEntries) :
    (cm.step mtc op).resultCache.length ≤ CombinedMatcher.maxCacheEntries := by
  cases op with
  | clearOp => simp [CombinedMatcher.step, CombinedMatcher.clear, CombinedMatcher.init]
  | addOp f =>
    by_cases hw : f.isWhitelist = true <;>
      simp [CombinedMatcher.step, CombinedMatcher.add, hw]
  | removeOp f =>
    by_cases hw : f.isWhitelist = true <;>
      simp [CombinedMatcher.step, CombinedMatcher.remove, hw]
  | queryOp loc tm dd tp sk so =>
    rw [CombinedMatcher.step, CombinedMatcher.matchesAny]
    cases halGet : alGet cm.resultCache (cacheKey loc tm dd tp sk so) with
    | some r => simpa using h
    | none =>
      simp only
      by_cases hfull : CombinedMatcher.maxCacheEntries ≤ cm.resultCache.length
      · simp only [hfull, if_true]
        simp [alSet, CombinedMatcher.maxCacheEntries]
      · simp only [hfull, if_false]
        have := length_alSet_le cm.resultCache (cacheKey loc tm dd tp sk so)
          (cm.matchesAnyInternal mtc loc tm dd tp sk so)
        simp only [CombinedMatcher.maxCacheEntries] at *
        omega

theorem foldl_cache_bound (mtc : Mtc) : ∀ (ops : List COp) (cm : CombinedMatcher),
    cm.resultCache.length ≤ CombinedMatcher.maxCacheEntries →
    (ops.foldl (CombinedMatcher.step mtc) cm).resultCache.length ≤
      CombinedMatcher.maxCacheEntries := by
  intro ops
  induction ops with
  | nil => intro cm h; simpa using h
  | cons op rest ih =>
    intro cm h
    rw [List.foldl_cons]
    exact ih (cm.step mtc op) (step_cache_bound mtc cm op h)

/-- C5: the result cache never exceeds maxCacheEntries = 1000 entries in
any reachable state, and a miss with the cache at capacity clears the
whole cache before inserting the single new entry (whole-cache reset, not
per-entry eviction). -/
theorem C5_cache_bound :
    (∀ (mtc : Mtc) (ops : List COp),
      (runCOps mtc ops).resultCache.length ≤ CombinedMatcher.maxCacheEntries)
    ∧
    (∀ (cm : CombinedMatcher) (mtc : Mtc) (loc : String) (tm : Nat)
        (dd : String) (tp : Bool) (sk : String) (so : Bool),
      cm.resultCache.length = CombinedMatcher.maxCacheEntries →
      alGet cm.resultCache (cacheKey loc tm dd tp sk so) = none →
      (cm.matchesAny mtc loc tm dd tp sk so).2.resultCache =
        [(cacheKey loc tm dd tp sk so,
          cm.matchesAnyInternal mtc loc tm dd tp sk so)]) := by
  constructor
  · intro mtc ops
    exact foldl_cache_bound mtc ops CombinedMatcher.init (by
      simp [CombinedMatcher.init, CombinedMatcher.maxCacheEntries])
  · intro cm mtc loc tm dd tp sk so hlen hmiss
    rw [CombinedMatcher.matchesAny]
    simp only [hmiss]
    have hfull : CombinedMatcher.maxCacheEntries ≤ cm.resultCache.length := by
      rw [hlen]
    simp [hfull, alSet]

def bigCache : List (String × Option Filter) :=
  (List.range CombinedMatcher.maxCacheEntries).map (fun i => (Nat.repr i, none))

set_option maxRecDepth 10000 in
theorem C5_witness :
    ((⟨Matcher.clear, Matcher.clear, bigCache⟩ : CombinedMatcher).matchesAny
        (fun _ _ _ _ _ _ => false) "q" 0 "" false "" false).2.resultCache =
      [(cacheKey "q" 0 "" false "" false,
        (⟨Matcher.clear, Matcher.clear, bigCache⟩ : CombinedMatcher).matchesAnyInternal
          (fun _ _ _ _ _ _ => false) "q" 0 "" false "" false)] :=
  C5_cache_bound.2 ⟨Matcher.clear, Matcher.clear, bigCache⟩
    (fun _ _ _ _ _ _ => false) "q" 0 "" false "" false
    (by simp [bigCache, CombinedMatcher.maxCacheEntries]) (by decide)

/-! ### Decimal printing facts

The cache key embeds the typeMask through Nat.repr; the coherence proof
needs that decimal strings contain no space and are injective. -/

theorem digitChar_ne_space (m : Nat) (h : m < 10) : Nat.digitChar m ≠ ' ' := by
  interval_cases m <;> decide

theorem toDigitsCore_acc (fuel : Nat) : ∀ (n : Nat) (ds : List Char),
    Nat.toDigitsCore 10 fuel n ds = Nat.toDigitsCore 10 fuel n [] ++ ds := by
  induction fuel with
  | zero => intro n ds; simp [Nat.toDigitsCore]
  | succ f ih =>
    intro n ds
    by_cases h : n / 10 = 0
    · simp [Nat.toDigitsCore, h]
    · simp only [Nat.toDigitsCore, h, if_false]
      rw [ih (n / 10) (Nat.digitChar (n % 10) :: ds),
        ih (n / 10) [Nat.digitChar (n % 10)]]
      simp

theorem toDigitsCore_fuel : ∀ (n f1 f2 : Nat), n < f1 → n < f2 →
    Nat.toDigitsCore 10 f1 n [] = Nat.toDigitsCore 10 f2 n [] := by
  intro n
  induction n using Nat.strong_induction_on with
  | _ n ih =>
    intro f1 f2 h1 h2
    cases f1 with
    | zero => omega
    | succ g1 =>
      cases f2 with
      | zero => omega
      | succ g2 =>
        by_cases h : n / 10 = 0
        · simp [Nat.toDigitsCore, h]
        · have hn : 0 < n := by
            rcases Nat.eq_zero_or_pos n with h0 | h0
            · rw [h0] at h; simp at h
            · exact h0
          have hlt : n / 10 < n := Nat.div_lt_self hn (by norm_num)
          simp only [Nat.toDigitsCore, h, if_false]
          rw [toDigitsCore_acc g1 (n / 10) [Nat.digitChar (n % 10)],
            toDigitsCore_acc g2 (n / 10) [Nat.digitChar (n % 10)]]
          rw [ih (n / 10) hlt g1 g2 (by omega) (by omega)]

theorem toDigits_unfold (n : Nat) :
    Nat.toDigits 10 n =
      (if n / 10 = 0 then [] else Nat.toDigits 10 (n / 10)) ++
        [Nat.digitChar (n % 10)] := by
  rw [Nat.toDigits, Nat.toDigits]
  by_cases h : n / 10 = 0
  · simp [Nat.toDigitsCore, h]
  · have hn : 0 < n := by
      rcases Nat.eq_zero_or_pos n with h0 | h0
      · rw [h0] at h; simp at h
      · exact h0
    have hlt : n / 10 < n := Nat.div_lt_self hn (by norm_num)
    simp only [Nat.toDigitsCore, h, if_false]
    rw [toDigitsCore_acc n (n / 10) [Nat.digitChar (n % 10)]]
    congr 1
    exact toDigitsCore_fuel (n / 10) n (n / 10 + 1) hlt (Nat.lt_succ_self _)

theorem toDigits_ne_nil (n : Nat) : Nat.toDigits 10 n ≠ [] := by
  rw [toDigits_unfold]
  simp

theorem toDigits_no_space : ∀ (n : Nat), ' ' ∉ Nat.toDigits 10 n := by
  intro n
  induction n using Nat.strong_induction_on with
  | _ n ih =>
    rw [toDigits_unfold]
    intro hmem
    rcases List.mem_append.mp hmem with hmem | hmem
    · by_cases h : n / 10 = 0
      · rw [h] at hmem; simp at hmem
      · have hn : 0 < n := by
          rcases Nat.eq_zero_or_pos n with h0 | h0
          · rw [h0] at h; simp at h
          · exact h0
        rw [if_neg h] at hmem
        exact ih (n / 10) (Nat.div_lt_self hn (by norm_num)) hmem
    · rw [List.mem_singleton] at hmem
      exact digitChar_ne_space (n % 10) (Nat.mod_lt n (by norm_num)) hmem.symm

theorem digitChar_inj_lt : ∀ a b : Nat, a < 10 → b < 10 →
    Nat.digitChar a = Nat.digitChar b → a = b := by
  intro a b ha hb
  interval_cases a <;> interval_cases b <;> revert ha hb <;> decide

theorem toDigits_inj : ∀ a b : Nat, Nat.toDigits 10 a = Nat.toDigits 10 b →
    a = b := by
  intro a
  induction a using Nat.strong_induction_on with
  | _ a ih =>
    intro b h
    rw [toDigits_unfold a, toDigits_unfold b] at h
    have h2 := List.append_inj' h (by simp)
    have hmod : a % 10 = b % 10 := by
      have := h2.2
      simp only [List.cons.injEq] at this
      exact digitChar_inj_lt _ _ (Nat.mod_lt a (by norm_num))
        (Nat.mod_lt b (by norm_num)) this.1
    by_cases ha : a / 10 = 0
    · by_cases hb : b / 10 = 0
      · omega
      · have := h2.1
        rw [if_pos ha, if_neg hb] at this
        exact absurd this.symm (toDigits_ne_nil (b / 10))
    · by_cases hb : b / 10 = 0
      · have := h2.1
        rw [if_neg ha, if_pos hb] at this
        exact absurd this (toDigits_ne_nil (a / 10))
      · have hpos : 0 < a := by
          rcases Nat.eq_zero_or_pos a with h0 | h0
          · rw [h0] at ha; simp at ha
          · exact h0
        have := h2.1
        rw [if_neg ha, if_neg hb] at this
        have hdiv := ih (a / 10) (Nat.div_lt_self hpos (by norm_num)) (b / 10) this
        omega

theorem repr_data (n : Nat) : (Nat.repr n).data = Nat.toDigits 10 n := rfl

theorem repr_no_space (n : Nat) : ' ' ∉ (Nat.repr n).data := by
  rw [repr_data]
  exact toDigits_no_space n

theorem repr_inj (a b : Nat) (h : Nat.repr a = Nat.repr b) : a = b := by
  apply toDigits_inj
  rw [← repr_data, ← repr_data, h]

/-! ### Injectivity of the cache key on space-free parameters -/

/-- A string free of the space character used as the cache-key delimiter. -/
def noSpace (s : String) : Prop := ' ' ∉ s.data

instance (s : String) : Decidable (noSpace s) := by
  rw [noSpace]
  infer_instance

theorem string_eq_of_data (a b : String) (h : a.data = b.data) : a = b := by
  cases a
  cases b
  simp_all

theorem splitSpace : ∀ (a b x y : List Char), ' ' ∉ a → ' ' ∉ b →
    a ++ ' ' :: x = b ++ ' ' :: y → a = b ∧ x = y := by
  intro a
  induction a with
  | nil =>
    intro b x y _ hb h
    cases b with
    | nil =>
      simp only [List.nil_append, List.cons.injEq] at h
      exact ⟨rfl, h.2⟩
    | cons c bs =>
      simp only [List.nil_append, List.cons_append, List.cons.injEq] at h
      have hc : ' ' ∈ c :: bs := by rw [← h.1]; exact List.mem_cons_self ' ' bs
      exact absurd hc hb
  | cons c as ih =>
    intro b x y ha hb h
    cases b with
    | nil =>
      simp only [List.cons_append, List.nil_append, List.cons.injEq] at h
      have hc : ' ' ∈ c :: as := by rw [h.1]; exact List.mem_cons_self ' ' as
      exact absurd hc ha
    | cons d bs =>
      simp only [List.cons_append, List.cons.injEq] at h
      have ha' : ' ' ∉ as := fun hm => ha (List.mem_cons_of_mem c hm)
      have hb' : ' ' ∉ bs := fun hm => hb (List.mem_cons_of_mem d hm)
      obtain ⟨h1, h2⟩ := ih bs x y ha' hb' h.2
      exact ⟨by rw [h.1, h1], h2⟩

theorem boolString_no_space (b : Bool) : ' ' ∉ (if b then "true" else "false").data := by
  cases b <;> decide

theorem boolString_inj (a b : Bool)
    (h : (if a then "true" else "false") = (if b then "true" else "false")) :
    a = b := by
  cases a <;> cases b <;> first | rfl | exact absurd h (by decide)

theorem cacheKey_data (loc : String) (tm : Nat) (dd : String) (tp : Bool)
    (sk : String) (so : Bool) :
    (cacheKey loc tm dd tp sk so).data =
      loc.data ++ ' ' :: ((Nat.repr tm).data ++ ' ' :: (dd.data ++ ' ' ::
        ((if tp then "true" else "false").data ++ ' ' :: (sk.data ++ ' ' ::
          (if so then "true" else "false").data)))) := by
  rw [cacheKey]
  simp only [String.data_append]
  simp

theorem cacheKey_inj (loc₁ loc₂ : String) (tm₁ tm₂ : Nat) (dd₁ dd₂ : String)
    (tp₁ tp₂ : Bool) (sk₁ sk₂ : String) (so₁ so₂ : Bool)
    (hl₁ : noSpace loc₁) (hl₂ : noSpace loc₂) (hd₁ : noSpace dd₁)
    (hd₂ : noSpace dd₂) (hs₁ : noSpace sk₁) (hs₂ : noSpace sk₂)
    (h : cacheKey loc₁ tm₁ dd₁ tp₁ sk₁ so₁ = cacheKey loc₂ tm₂ dd₂ tp₂ sk₂ so₂) :
    loc₁ = loc₂ ∧ tm₁ = tm₂ ∧ dd₁ = dd₂ ∧ tp₁ = tp₂ ∧ sk₁ = sk₂ ∧ so₁ = so₂ := by
  have hdata := congrArg String.data h
  rw [cacheKey_data, cacheKey_data] at hdata
  obtain ⟨e1, hdata⟩ := splitSpace _ _ _ _ hl₁ hl₂ hdata
  obtain ⟨e2, hdata⟩ := splitSpace _ _ _ _ (repr_no_space tm₁) (repr_no_space tm₂) hdata
  obtain ⟨e3, hdata⟩ := splitSpace _ _ _ _ hd₁ hd₂ hdata
  obtain ⟨e4, hdata⟩ := splitSpace _ _ _ _ (boolString_no_space tp₁)
    (boolString_no_space tp₂) hdata
  obtain ⟨e5, hdata⟩ := splitSpace _ _ _ _ hs₁ hs₂ hdata
  refine ⟨string_eq_of_data _ _ e1, ?_, string_eq_of_data _ _ e3, ?_,
    string_eq_of_data _ _ e5, ?_⟩
  · exact repr_inj tm₁ tm₂ (string_eq_of_data _ _ e2)
  · exact boolString_inj tp₁ tp₂ (string_eq_of_data _ _ e4)
  · exact boolString_inj so₁ so₂ (string_eq_of_data _ _ hdata)

/-! ### Cache coherence under space-free parameters -/

/-- An operation whose string parameters avoid the cache-key delimiter. -/
def COp.clean : COp → Prop
  | .queryOp loc _ dd _ sk _ => noSpace loc ∧ noSpace dd ∧ noSpace sk
  | _ => True

instance : ∀ op : COp, Decidable op.clean := fun op =>
  match op with
  | .clearOp => isTrue trivial
  | .addOp _ => isTrue trivial
  | .removeOp _ => isTrue trivial
  | .queryOp loc _ dd _ sk _ =>
    inferInstanceAs (Decidable (noSpace loc ∧ noSpace dd ∧ noSpace sk))

/-- Every cache entry was computed by matchesAnyInternal on the current
indexes for some space-free query signature that keys to it. -/
def cacheOK (mtc : Mtc) (cm : CombinedMatcher) : Prop :=
  ∀ e ∈ cm.resultCache, ∃ loc tm dd tp sk so,
    noSpace loc ∧ noSpace dd ∧ noSpace sk ∧
    cacheKey loc tm dd tp sk so = e.1 ∧
    cm.matchesAnyInternal mtc loc tm dd tp sk so = e.2

theorem step_cacheOK (mtc : Mtc) (cm : CombinedMatcher) (op : COp)
    (hop : op.clean) (h : cacheOK mtc cm) : cacheOK mtc (cm.step mtc op) := by
  cases op with
  | clearOp =>
    intro e he
    simp [CombinedMatcher.step, CombinedMatcher.clear, CombinedMatcher.init] at he
  | addOp f =>
    intro e he
    by_cases hw : f.isWhitelist = true <;>
      simp [CombinedMatcher.step, CombinedMatcher.add, hw] at he
  | removeOp f =>
    intro e he
    by_cases hw : f.isWhitelist = true <;>
      simp [CombinedMatcher.step, CombinedMatcher.remove, hw] at he
  | queryOp loc tm dd tp sk so =>
    obtain ⟨hql, hqd, hqs⟩ := hop
    rw [CombinedMatcher.step]
    rw [CombinedMatcher.matchesAny]
    cases hget : alGet cm.resultCache (cacheKey loc tm dd tp sk so) with
    | some r =>
      simpa using h
    | none =>
      simp only
      intro e he
      simp only at he
      rcases mem_alSet _ _ _ _ he with he | he
      · refine ⟨loc, tm, dd, tp, sk, so, hql, hqd, hqs, ?_, ?_⟩
        · rw [he]
        · rw [he]
          rfl
      · have hmem : e ∈ cm.resultCache := by
          by_cases hfull :
              CombinedMatcher.maxCacheEntries ≤ cm.resultCache.length
          · rw [if_pos hfull] at he
            simp at he
          · rw [if_neg hfull] at he
            exact he
        obtain ⟨l, t, d, p, s, o, c1, c2, c3, c4, c5⟩ := h e hmem
        exact ⟨l, t, d, p, s, o, c1, c2, c3, c4, c5⟩

theorem foldl_cacheOK (mtc : Mtc) : ∀ (ops : List COp) (cm : CombinedMatcher),
    (∀ op ∈ ops, op.clean) → cacheOK mtc cm →
    cacheOK mtc (ops.foldl (CombinedMatcher.step mtc) cm) := by
  intro ops
  induction ops with
  | nil => intro cm _ h; simpa using h
  | cons op rest ih =>
    intro cm hops h
    rw [List.foldl_cons]
    exact ih (cm.step mtc op)
      (fun o ho => hops o (List.mem_cons_of_mem op ho))
      (step_cacheOK mtc cm op (hops op (List.mem_cons_self op rest)) h)

theorem runCOps_cacheOK (mtc : Mtc) (ops : List COp)
    (hops : ∀ op ∈ ops, op.clean) : cacheOK mtc (runCOps mtc ops) := by
  rw [runCOps]
  exact foldl_cacheOK mtc ops CombinedMatcher.init hops
    (by intro e he; simp [CombinedMatcher.init] at he)

/-- C4 (amended): on every state reachable by operations whose string
parameters contain no space (the cache-key delimiter) and for every query
whose location, docDomain and sitekey contain no space, matchesAny
returns exactly what matchesAnyInternal returns on the current indexes.
The unamended claim over all reachable states fails because distinct
query tuples can share a cache key (see the counterexample). -/
theorem C4_cache_transparency_spacefree (mtc : Mtc) (ops : List COp)
    (hops : ∀ op ∈ ops, op.clean) (loc : String) (tm : Nat) (dd : String)
    (tp : Bool) (sk : String) (so : Bool)
    (hl : noSpace loc) (hd : noSpace dd) (hs : noSpace sk) :
    ((runCOps mtc ops).matchesAny mtc loc tm dd tp sk so).1 =
      (runCOps mtc ops).matchesAnyInternal mtc loc tm dd tp sk so := by
  have h := runCOps_cacheOK mtc ops hops
  rw [CombinedMatcher.matchesAny]
  cases hget : alGet (runCOps mtc ops).resultCache (cacheKey loc tm dd tp sk so) with
  | none => simp
  | some r =>
    simp only
    obtain ⟨l, t, d, p, s, o, c1, c2, c3, c4, c5⟩ :=
      h (cacheKey loc tm dd tp sk so, r) (alGet_mem _ _ _ hget)
    obtain ⟨e1, e2, e3, e4, e5, e6⟩ :=
      cacheKey_inj l loc t tm d dd p tp s sk o so c1 hl c2 hd c3 hs c4
    rw [e1, e2, e3, e4, e5, e6] at c5
    exact c5.symm

/-- C4 counterexample: the unamended claim fails on a reachable state.
The query tuples (loc "l", mask 0, domain "x", thirdParty, sitekey
"true s", not specificOnly) and (loc "l", mask 0, domain "x true",
thirdParty, sitekey "s", not specificOnly) share one cache key; after the
first is cached, matchesAny answers the second from the cache while
matchesAnyInternal disagrees. -/
theorem C4_counterexample :
    ((runCOps (fun _ _ _ dd _ _ => dd == "x")
        [COp.addOp ⟨0, "ads", false, false⟩,
         COp.queryOp "l" 0 "x" true "true s" false]).matchesAny
        (fun _ _ _ dd _ _ => dd == "x") "l" 0 "x true" true "s" false).1 ≠
      (runCOps (fun _ _ _ dd _ _ => dd == "x")
        [COp.addOp ⟨0, "ads", false, false⟩,
         COp.queryOp "l" 0 "x" true "true s" false]).matchesAnyInternal
        (fun _ _ _ dd _ _ => dd == "x") "l" 0 "x true" true "s" false := by
  decide

theorem C4_witness :
    ((runCOps (fun _ _ _ _ _ _ => true)
        [COp.addOp ⟨0, "&abcd&", false, false⟩,
         COp.queryOp "abc" 1 "d" false "" false]).matchesAny
        (fun _ _ _ _ _ _ => true) "abc" 1 "d" false "" false).1 =
      (runCOps (fun _ _ _ _ _ _ => true)
        [COp.addOp ⟨0, "&abcd&", false, false⟩,
         COp.queryOp "abc" 1 "d" false "" false]).matchesAnyInternal
        (fun _ _ _ _ _ _ => true) "abc" 1 "d" false "" false :=
  C4_cache_transparency_spacefree (fun _ _ _ _ _ _ => true)
    [COp.addOp ⟨0, "&abcd&", false, false⟩,
     COp.queryOp "abc" 1 "d" false "" false]
    (by decide) "abc" 1 "d" false "" false (by decide) (by decide) (by decide)

/-! ### Index well-formedness -/

section MoreAList

variable {α β : Type} [DecidableEq α]

theorem alDelete_sublist (m : List (α × β)) (k : α) : (alDelete m k).Sublist m := by
  induction m with
  | nil => simp [alDelete]
  | cons p rest ih =>
    obtain ⟨k0, v0⟩ := p
    by_cases hk : k0 = k
    · simp [alDelete, hk]
    · simp only [alDelete, hk, if_false]
      exact ih.cons₂ (k0, v0)

theorem mem_alDelete_nodup (m : List (α × β)) (k : α) (q : α × β)
    (hnd : (m.map Prod.fst).Nodup) (h : q ∈ alDelete m k) : q.1 ≠ k := by
  induction m with
  | nil => simp [alDelete] at h
  | cons p rest ih =>
    obtain ⟨k0, v0⟩ := p
    rw [List.map_cons, List.nodup_cons] at hnd
    by_cases hk : k0 = k
    · subst hk
      simp only [alDelete, if_pos rfl] at h
      intro he
      apply hnd.1
      rw [← he]
      exact List.mem_map.mpr ⟨q, h, rfl⟩
    · simp only [alDelete, hk, if_false, List.mem_cons] at h
      rcases h with h | h
      · rw [h]; exact hk
      · exact ih hnd.2 h

theorem mem_alSet_nodup (m : List (α × β)) (k : α) (v : β) (q : α × β)
    (hnd : (m.map Prod.fst).Nodup) (h : q ∈ alSet m k v) :
    q = (k, v) ∨ (q ∈ m ∧ q.1 ≠ k) := by
  induction m with
  | nil =>
    simp only [alSet, List.mem_singleton] at h
    exact Or.inl h
  | cons p rest ih =>
    obtain ⟨k0, v0⟩ := p
    rw [List.map_cons, List.nodup_cons] at hnd
    by_cases hk : k0 = k
    · subst hk
      simp only [alSet, eq_self_iff_true, if_true, List.mem_cons] at h
      rcases h with h | h
      · exact Or.inl h
      · right
        refine ⟨List.mem_cons_of_mem _ h, ?_⟩
        intro he
        apply hnd.1
        rw [← he]
        exact List.mem_map.mpr ⟨q, h, rfl⟩
    · simp only [alSet, hk, if_false, List.mem_cons] at h
      rcases h with h | h
      · right
        exact ⟨by rw [h]; exact List.mem_cons_self _ _, by rw [h]; exact hk⟩
      · rcases ih hnd.2 h with h' | h'
        · exact Or.inl h'
        · exact Or.inr ⟨List.mem_cons_of_mem _ h'.1, h'.2⟩

theorem alSet_keys_of_present (m : List (α × β)) (k : α) (v w : β)
    (h : alGet m k = some w) :
    (alSet m k v).map Prod.fst = m.map Prod.fst := by
  induction m with
  | nil => simp [alGet] at h
  | cons p rest ih =>
    obtain ⟨k0, v0⟩ := p
    by_cases hk : k0 = k
    · subst hk; simp [alSet]
    · simp only [alGet, hk, if_false] at h
      simp [alSet, hk, ih h]

theorem alSet_alSet (m : List (α × β)) (k : α) (v w : β) :
    alSet (alSet m k v) k w = alSet m k w := by
  induction m with
  | nil => simp [alSet]
  | cons p rest ih =>
    obtain ⟨k0, v0⟩ := p
    by_cases hk : k0 = k
    · subst hk; simp [alSet]
    · simp [alSet, hk, ih]

end MoreAList

/-- Well-formedness of a keyword index: unique keys in both maps,
nonempty duplicate-free buckets, every bucket member tracked by the
inverse map under that bucket's keyword, and every tracked filter present
in the bucket its inverse entry names. -/
def Wf (m : Matcher) : Prop :=
  (m.filterByKeyword.map Prod.fst).Nodup ∧
  (m.keywordByFilter.map Prod.fst).Nodup ∧
  (∀ q ∈ m.filterByKeyword, q.2 ≠ [] ∧ q.2.Nodup) ∧
  (∀ q ∈ m.filterByKeyword, ∀ f ∈ q.2, alGet m.keywordByFilter f = some q.1) ∧
  (∀ p ∈ m.keywordByFilter, p.1 ∈ (alGet m.filterByKeyword p.2).getD [])

instance (m : Matcher) : Decidable (Wf m) := by
  rw [Wf]
  infer_instance

theorem Wf_clear : Wf Matcher.clear := by
  refine ⟨?_, ?_, ?_, ?_, ?_⟩ <;> simp [Matcher.clear]

theorem Wf_untracked_not_in_bucket (m : Matcher) (f : Filter)
    (h4 : ∀ q ∈ m.filterByKeyword, ∀ g ∈ q.2, alGet m.keywordByFilter g = some q.1)
    (hnone : alGet m.keywordByFilter f = none) :
    ∀ q ∈ m.filterByKeyword, f ∉ q.2 := by
  intro q hq hmem
  have := h4 q hq f hmem
  rw [hnone] at this
  exact Option.noConfusion this

theorem Wf_add (m : Matcher) (f : Filter) (h : Wf m) : Wf (m.add f) := by
  obtain ⟨h1, h2, h3, h4, h5⟩ := h
  cases htr : alGet m.keywordByFilter f with
  | some k =>
    simp only [Matcher.add, htr, Option.isSome_some, if_true]
    exact ⟨h1, h2, h3, h4, h5⟩
  | none =>
    have hfnot := Wf_untracked_not_in_bucket m f h4 htr
    have hfnotin : f ∉ m.keywordByFilter.map Prod.fst := by
      rw [List.mem_map]
      rintro ⟨p, hp, hpe⟩
      exact (alGet_eq_none_iff _ _).mp htr p hp hpe
    simp only [Matcher.add, htr, Option.isSome_none, Bool.false_eq_true, if_false]
    generalize m.findKeyword f = kw
    rw [alSet_of_absent _ _ _ htr]
    have h2' : ((m.keywordByFilter ++ [(f, kw)]).map Prod.fst).Nodup := by
      rw [List.map_append]
      refine List.Nodup.append h2 (by simp) ?_
      simp only [List.map_cons, List.map_nil]
      rw [List.disjoint_singleton]
      exact hfnotin
    cases hbucket : alGet m.filterByKeyword kw with
    | none =>
      have hknotin : kw ∉ m.filterByKeyword.map Prod.fst := by
        rw [List.mem_map]
        rintro ⟨p, hp, hpe⟩
        exact (alGet_eq_none_iff _ _).mp hbucket p hp hpe
      rw [alSet_of_absent _ _ _ hbucket]
      refine ⟨?_, h2', ?_, ?_, ?_⟩
      · rw [List.map_append]
        refine List.Nodup.append h1 (by simp) ?_
        simp only [List.map_cons, List.map_nil]
        rw [List.disjoint_singleton]
        exact hknotin
      · intro q hq
        rcases List.mem_append.mp hq with hq | hq
        · exact h3 q hq
        · rw [List.mem_singleton] at hq
          rw [hq]
          exact ⟨by simp, by simp⟩
      · intro q hq g hg
        rcases List.mem_append.mp hq with hq | hq
        · exact alGet_append_left _ _ _ _ (h4 q hq g hg)
        · rw [List.mem_singleton] at hq
          rw [hq] at hg ⊢
          rw [List.mem_singleton] at hg
          rw [hg, alGet_append_right _ _ _ htr]
          simp [alGet]
      · intro p hp
        rcases List.mem_append.mp hp with hp | hp
        · have h5p := h5 p hp
          cases hx : alGet m.filterByKeyword p.2 with
          | none => rw [hx] at h5p; simp at h5p
          | some l' =>
            rw [hx] at h5p
            rw [alGet_append_left _ _ _ _ hx]
            exact h5p
        · rw [List.mem_singleton] at hp
          rw [hp]
          rw [alGet_append_right _ _ _ hbucket]
          simp [alGet]
    | some l =>
      have hql : (kw, l) ∈ m.filterByKeyword := alGet_mem _ _ _ hbucket
      have hl3 := h3 _ hql
      have hfl : f ∉ l := hfnot _ hql
      refine ⟨?_, h2', ?_, ?_, ?_⟩
      · rw [alSet_keys_of_present _ _ _ _ hbucket]
        exact h1
      · intro q hq
        rcases mem_alSet_nodup _ _ _ _ h1 hq with hq | hq
        · rw [hq]
          constructor
          · simp
          · rw [List.nodup_append]
            exact ⟨hl3.2, by simp, by simp [hfl]⟩
        · exact h3 q hq.1
      · intro q hq g hg
        rcases mem_alSet_nodup _ _ _ _ h1 hq with hq | hq
        · rw [hq] at hg ⊢
          rcases List.mem_append.mp hg with hg | hg
          · exact alGet_append_left _ _ _ _ (h4 _ hql g hg)
          · rw [List.mem_singleton] at hg
            rw [hg, alGet_append_right _ _ _ htr]
            simp [alGet]
        · exact alGet_append_left _ _ _ _ (h4 q hq.1 g hg)
      · intro p hp
        rcases List.mem_append.mp hp with hp | hp
        · have h5p := h5 p hp
          cases hx : alGet m.filterByKeyword p.2 with
          | none => rw [hx] at h5p; simp at h5p
          | some l' =>
            rw [hx] at h5p
            by_cases hpe : p.2 = kw
            · have hll : l' = l := by
                rw [hpe] at hx
                rw [hbucket] at hx
                exact (Option.some.inj hx).symm
              rw [hpe, alGet_alSet_self]
              simp only [Option.getD_some] at h5p ⊢
              exact List.mem_append_left _ (hll ▸ h5p)
            · rw [alGet_alSet_ne _ _ _ _ (fun he => hpe he.symm), hx]
              exact h5p
        · rw [List.mem_singleton] at hp
          rw [hp]
          simp only
          rw [alGet_alSet_self]
          simp

theorem Wf_remove (m : Matcher) (f : Filter) (h : Wf m) : Wf (m.remove f) := by
  obtain ⟨h1, h2, h3, h4, h5⟩ := h
  cases htr : alGet m.keywordByFilter f with
  | none =>
    simp only [Matcher.remove, htr]
    exact ⟨h1, h2, h3, h4, h5⟩
  | some kw =>
    have hpmem : (f, kw) ∈ m.keywordByFilter := alGet_mem _ _ _ htr
    have hf5 := h5 (f, kw) hpmem
    have h2' : ((alDelete m.keywordByFilter f).map Prod.fst).Nodup :=
      h2.sublist ((alDelete_sublist _ _).map Prod.fst)
    cases hbucket : alGet m.filterByKeyword kw with
    | none =>
      rw [hbucket] at hf5
      simp at hf5
    | some l =>
      rw [hbucket] at hf5
      simp only [Option.getD_some] at hf5
      simp only [Matcher.remove, htr, hbucket, Option.getD_some]
      have hl3 := h3 (kw, l) (alGet_mem _ _ _ hbucket)
      by_cases hlen : l.length ≤ 1
      · have hlf : l = [f] := by
          cases l with
          | nil => simp at hf5
          | cons a rest =>
            cases rest with
            | nil =>
              rw [List.mem_singleton] at hf5
              rw [hf5]
            | cons b r2 => simp at hlen
        simp only [if_pos hlen]
        refine ⟨h1.sublist ((alDelete_sublist _ _).map Prod.fst), h2', ?_, ?_, ?_⟩
        · intro q hq
          exact h3 q (mem_alDelete _ _ _ hq)
        · intro q hq g hg
          have hqm := mem_alDelete _ _ _ hq
          have hqne := mem_alDelete_nodup _ _ _ h1 hq
          have hg4 := h4 q hqm g hg
          have hgne : g ≠ f := by
            intro he
            rw [he, htr] at hg4
            exact hqne (Option.some.inj hg4).symm
          rw [alGet_alDelete_ne _ _ _ (fun he => hgne he.symm)]
          exact hg4
        · intro p hp
          have hpm : p ∈ m.keywordByFilter := (alDelete_sublist _ _).subset hp
          have hpne := mem_alDelete_nodup _ _ _ h2 hp
          have h5p := h5 p hpm
          cases hx : alGet m.filterByKeyword p.2 with
          | none => rw [hx] at h5p; simp at h5p
          | some l' =>
            rw [hx] at h5p
            simp only [Option.getD_some] at h5p
            have hne2 : p.2 ≠ kw := by
              intro he
              rw [he, hbucket] at hx
              have : l' = l := (Option.some.inj hx).symm
              rw [this, hlf, List.mem_singleton] at h5p
              exact hpne h5p
            rw [alGet_alDelete_ne _ _ _ (fun he => hne2 he.symm), hx]
            simpa using h5p
      · simp only [if_neg hlen, if_pos hf5]
        have herasene : l.erase f ≠ [] := by
          have hle := List.length_erase_of_mem hf5
          intro he
          rw [he] at hle
          simp at hle
          omega
        refine ⟨?_, h2', ?_, ?_, ?_⟩
        · rw [alSet_keys_of_present _ _ _ _ hbucket]
          exact h1
        · intro q hq
          rcases mem_alSet_nodup _ _ _ _ h1 hq with hq | hq
          · rw [hq]
            exact ⟨herasene, hl3.2.erase f⟩
          · exact h3 q hq.1
        · intro q hq g hg
          rcases mem_alSet_nodup _ _ _ _ h1 hq with hq | hq
          · rw [hq] at hg ⊢
            simp only at hg
            rw [hl3.2.mem_erase_iff] at hg
            have hg4 := h4 (kw, l) (alGet_mem _ _ _ hbucket) g hg.2
            rw [alGet_alDelete_ne _ _ _ (fun he => hg.1 he.symm)]
            exact hg4
          · have hg4 := h4 q hq.1 g hg
            have hgne : g ≠ f := by
              intro he
              rw [he, htr] at hg4
              exact hq.2 (Option.some.inj hg4).symm
            rw [alGet_alDelete_ne _ _ _ (fun he => hgne he.symm)]
            exact hg4
        · intro p hp
          have hpm : p ∈ m.keywordByFilter := (alDelete_sublist _ _).subset hp
          have hpne := mem_alDelete_nodup _ _ _ h2 hp
          have h5p := h5 p hpm
          cases hx : alGet m.filterByKeyword p.2 with
          | none => rw [hx] at h5p; simp at h5p
          | some l' =>
            rw [hx] at h5p
            simp only [Option.getD_some] at h5p
            by_cases hpe : p.2 = kw
            · have hll : l' = l := by
                rw [hpe, hbucket] at hx
                exact (Option.some.inj hx).symm
              rw [hpe, alGet_alSet_self]
              simp only [Option.getD_some]
              exact (List.mem_erase_of_ne hpne).mpr (hll ▸ h5p)
            · rw [alGet_alSet_ne _ _ _ _ (fun he => hpe he.symm), hx]
              simpa using h5p

theorem Wf_step (m : Matcher) (op : MOp) (h : Wf m) : Wf (m.step op) := by
  cases op with
  | clearOp => exact Wf_clear
  | addOp f => exact Wf_add m f h
  | removeOp f => exact Wf_remove m f h

theorem Wf_runMOps (ops : List MOp) : Wf (runMOps ops) := by
  rw [runMOps]
  have : ∀ (l : List MOp) (m : Matcher), Wf m → Wf (l.foldl Matcher.step m) := by
    intro l
    induction l with
    | nil => intro m h; simpa using h
    | cons op rest ih =>
      intro m h
      rw [List.foldl_cons]
      exact ih (m.step op) (Wf_step m op h)
  exact this ops Matcher.clear Wf_clear

/-- C6: inverse-map consistency holds in every state reachable by clear,
add and remove:
every tracked filter lies in the bucket its inverse entry names, lies in
no other bucket, every filter found in a bucket has an inverse entry
naming exactly that bucket's keyword, and the inverse map holds at most
one entry per filter. -/
theorem C6_inverse_map_consistency (ops : List MOp) :
    (∀ p ∈ (runMOps ops).keywordByFilter,
      p.1 ∈ (alGet (runMOps ops).filterByKeyword p.2).getD []) ∧
    (∀ p ∈ (runMOps ops).keywordByFilter, ∀ q ∈ (runMOps ops).filterByKeyword,
      p.1 ∈ q.2 → q.1 = p.2) ∧
    (∀ q ∈ (runMOps ops).filterByKeyword, ∀ g ∈ q.2,
      alGet (runMOps ops).keywordByFilter g = some q.1) ∧
    ((runMOps ops).keywordByFilter.map Prod.fst).Nodup := by
  obtain ⟨h1, h2, h3, h4, h5⟩ := Wf_runMOps ops
  refine ⟨h5, ?_, h4, h2⟩
  intro p hp q hq hmem
  have hgp := alGet_of_mem_nodupKeys _ p h2 hp
  have hgq := h4 q hq p.1 hmem
  rw [hgp] at hgq
  exact (Option.some.inj hgq).symm

theorem C6_witness :
    (∀ p ∈ (runMOps [MOp.addOp ⟨0, "-aaa-", false, false⟩,
        MOp.addOp ⟨1, "-bbb-", false, false⟩,
        MOp.removeOp ⟨0, "-aaa-", false, false⟩]).keywordByFilter,
      p.1 ∈ (alGet (runMOps [MOp.addOp ⟨0, "-aaa-", false, false⟩,
        MOp.addOp ⟨1, "-bbb-", false, false⟩,
        MOp.removeOp ⟨0, "-aaa-", false, false⟩]).filterByKeyword p.2).getD []) :=
  (C6_inverse_map_consistency [MOp.addOp ⟨0, "-aaa-", false, false⟩,
    MOp.addOp ⟨1, "-bbb-", false, false⟩,
    MOp.removeOp ⟨0, "-aaa-", false, false⟩]).1

/-- C7: on a well-formed state where f is untracked, add(f) followed by
remove(f) restores the state exactly (the keyword entry is dropped when
the bucket would become empty), and remove(f) alone is a no-op. -/
theorem C7_add_remove_roundtrip (m : Matcher) (f : Filter) (hWf : Wf m)
    (huntracked : alGet m.keywordByFilter f = none) :
    (m.add f).remove f = m ∧ m.remove f = m := by
  obtain ⟨h1, h2, h3, h4, h5⟩ := hWf
  constructor
  · have hfnot := Wf_untracked_not_in_bucket m f h4 huntracked
    simp only [Matcher.add, huntracked, Option.isSome_none, Bool.false_eq_true,
      if_false]
    generalize m.findKeyword f = kw
    have hkbf : alSet m.keywordByFilter f kw = m.keywordByFilter ++ [(f, kw)] :=
      alSet_of_absent _ _ _ huntracked
    have hget : alGet (m.keywordByFilter ++ [(f, kw)]) f = some kw := by
      rw [alGet_append_right _ _ _ huntracked]
      simp [alGet]
    have hdel : alDelete (m.keywordByFilter ++ [(f, kw)]) f = m.keywordByFilter :=
      alDelete_append_of_absent _ _ _ huntracked
    cases hbucket : alGet m.filterByKeyword kw with
    | none =>
      rw [alSet_of_absent _ _ _ hbucket, hkbf]
      rw [Matcher.remove]
      simp only [hget]
      rw [alGet_append_right _ _ _ hbucket]
      simp only [alGet, if_pos rfl, Option.getD_some, List.length_singleton,
        le_refl, if_true]
      rw [alDelete_append_of_absent _ _ _ hbucket, hdel]
    | some l =>
      have hql : (kw, l) ∈ m.filterByKeyword := alGet_mem _ _ _ hbucket
      have hlne : l ≠ [] := (h3 _ hql).1
      have hfl : f ∉ l := hfnot _ hql
      rw [hkbf]
      rw [Matcher.remove]
      simp only [hget]
      rw [alGet_alSet_self]
      simp only [Option.getD_some]
      have hlenne : ¬(l ++ [f]).length ≤ 1 := by
        rw [List.length_append, List.length_singleton]
        cases l with
        | nil => exact absurd rfl hlne
        | cons a r => simp
      simp only [hlenne, if_false]
      have hfmem : f ∈ l ++ [f] := List.mem_append_right l (List.mem_singleton.mpr rfl)
      simp only [hfmem, if_true]
      rw [List.erase_append_right _ hfl, List.erase_cons_head, List.append_nil]
      rw [alSet_alSet, alSet_same _ _ _ hbucket, hdel]
  · rw [Matcher.remove]
    simp only [huntracked]

theorem C7_witness :
    ((runMOps [MOp.addOp ⟨0, "-aaa-", false, false⟩]).add
        ⟨1, "-bbb-", false, false⟩).remove ⟨1, "-bbb-", false, false⟩ =
      runMOps [MOp.addOp ⟨0, "-aaa-", false, false⟩] ∧
    (runMOps [MOp.addOp ⟨0, "-aaa-", false, false⟩]).remove
        ⟨1, "-bbb-", false, false⟩ =
      runMOps [MOp.addOp ⟨0, "-aaa-", false, false⟩] :=
  C7_add_remove_roundtrip (runMOps [MOp.addOp ⟨0, "-aaa-", false, false⟩])
    ⟨1, "-bbb-", false, false⟩ (by decide) (by decide)

/-! ### The keyword selection policy -/

/-- Candidate a is at least as good as candidate c under findKeyword's
policy: smaller bucket, or equal buckets and at least the length. -/
def beats (m : Matcher) (a c : String) : Prop :=
  bucketCount m a < bucketCount m c ∨
    (bucketCount m a = bucketCount m c ∧ c.length ≤ a.length)

theorem beats_refl (m : Matcher) (a : String) : beats m a a :=
  Or.inr ⟨rfl, Nat.le_refl _⟩

theorem beats_trans (m : Matcher) (a b c : String) (h1 : beats m a b)
    (h2 : beats m b c) : beats m a c := by
  rcases h1 with h1 | ⟨e1, l1⟩
  · rcases h2 with h2 | ⟨e2, l2⟩
    · exact Or.inl (Nat.lt_trans h1 h2)
    · exact Or.inl (e2 ▸ h1)
  · rcases h2 with h2 | ⟨e2, l2⟩
    · exact Or.inl (e1 ▸ h2)
    · exact Or.inr ⟨e1.trans e2, Nat.le_trans l2 l1⟩

theorem findKeywordGo_mem (m : Matcher) : ∀ (rest : List String) (res : String)
    (rc rl : Nat),
    findKeywordGo m rest res rc rl = res ∨ findKeywordGo m rest res rc rl ∈ rest := by
  intro rest
  induction rest with
  | nil => intro res rc rl; left; rfl
  | cons c cs ih =>
    intro res rc rl
    simp only [findKeywordGo]
    split
    · rcases ih c (bucketCount m c) c.length with h | h
      · right; rw [h]; exact List.mem_cons_self c cs
      · right; exact List.mem_cons_of_mem _ h
    · rcases ih res rc rl with h | h
      · left; exact h
      · right; exact List.mem_cons_of_mem _ h

theorem findKeywordGo_spec (m : Matcher) : ∀ (rest : List String) (res : String)
    (rc rl : Nat), rc = bucketCount m res → rl = res.length →
    beats m (findKeywordGo m rest res rc rl) res ∧
    ∀ c ∈ rest, beats m (findKeywordGo m rest res rc rl) c := by
  intro rest
  induction rest with
  | nil =>
    intro res rc rl hrc hrl
    refine ⟨beats_refl m res, ?_⟩
    intro c hc
    simp at hc
  | cons c cs ih =>
    intro res rc rl hrc hrl
    subst hrc
    subst hrl
    simp only [findKeywordGo]
    split
    · next hcond =>
      have hc_beats_res : beats m c res := by
        simp only [Bool.or_eq_true, decide_eq_true_eq, Bool.and_eq_true,
          beq_iff_eq] at hcond
        rcases hcond with h | ⟨he, hl⟩
        · exact Or.inl h
        · exact Or.inr ⟨he, Nat.le_of_lt hl⟩
      obtain ⟨hb, hall⟩ := ih c (bucketCount m c) c.length rfl rfl
      refine ⟨beats_trans _ _ _ _ hb hc_beats_res, ?_⟩
      intro d hd
      rcases List.mem_cons.mp hd with hd | hd
      · rw [hd]; exact hb
      · exact hall d hd
    · next hcond =>
      have hres_beats_c : beats m res c := by
        simp only [Bool.or_eq_true, decide_eq_true_eq, Bool.and_eq_true,
          beq_iff_eq] at hcond
        push_neg at hcond
        rcases Nat.lt_or_ge (bucketCount m res) (bucketCount m c) with hlt | hge
        · exact Or.inl hlt
        · have heq : bucketCount m c = bucketCount m res :=
            Nat.le_antisymm hge hcond.1
          exact Or.inr ⟨heq.symm, hcond.2 heq⟩
      obtain ⟨hb, hall⟩ := ih res (bucketCount m res) res.length rfl rfl
      refine ⟨hb, ?_⟩
      intro d hd
      rcases List.mem_cons.mp hd with hd | hd
      · rw [hd]; exact beats_trans _ _ _ _ hb hres_beats_c
      · exact hall d hd

/-- C8: findKeyword returns the empty keyword for regex-style text and
when no anchored candidate token exists; otherwise, whenever every
candidate's bucket is below the 0xFFFFFF sentinel, it returns one of the
candidates (the lowercase anchored runs of the text after stripping the
option suffix and the leading whitelist marker), and the returned one has
a bucket no larger than any candidate's, with ties broken towards the
longer token. -/
theorem C8_findKeyword_selection (m : Matcher) (f : Filter) :
    (isRegexpStyle f.text = true → m.findKeyword f = "") ∧
    (isRegexpStyle f.text = false →
      kwTokens (lowerList (stripExceptionMarker (stripOptions f.text).data)) = [] →
      m.findKeyword f = "") ∧
    (isRegexpStyle f.text = false →
      ∀ cands : List String,
      kwTokens (lowerList (stripExceptionMarker (stripOptions f.text).data)) = cands →
      cands ≠ [] →
      (∀ c ∈ cands, bucketCount m c < 0xFFFFFF) →
      m.findKeyword f ∈ cands ∧
      ∀ c ∈ cands,
        bucketCount m (m.findKeyword f) < bucketCount m c ∨
          (bucketCount m (m.findKeyword f) = bucketCount m c ∧
            c.length ≤ (m.findKeyword f).length)) := by
  refine ⟨?_, ?_, ?_⟩
  · intro hre
    rw [Matcher.findKeyword, if_pos hre]
  · intro hre hnil
    rw [Matcher.findKeyword]
    simp only [hre, Bool.false_eq_true, if_false]
    rw [hnil]
    rfl
  · intro hre cands hcands hne hbound
    rw [Matcher.findKeyword]
    simp only [hre, Bool.false_eq_true, if_false]
    rw [hcands]
    cases cands with
    | nil => exact absurd rfl hne
    | cons c0 cs =>
      have hcond : (decide (bucketCount m c0 < 0xFFFFFF) ||
          (bucketCount m c0 == 0xFFFFFF && decide (0 < c0.length))) = true := by
        simp [hbound c0 (List.mem_cons_self c0 cs)]
      simp only [findKeywordGo, hcond, if_true]
      obtain ⟨hb, hall⟩ := findKeywordGo_spec m cs c0 (bucketCount m c0)
        c0.length rfl rfl
      constructor
      · rcases findKeywordGo_mem m cs c0 (bucketCount m c0) c0.length with h | h
        · rw [h]; exact List.mem_cons_self c0 cs
        · exact List.mem_cons_of_mem _ h
      · intro c hc
        rcases List.mem_cons.mp hc with hc | hc
        · rw [hc]; exact hb
        · exact hall c hc

theorem C8_witness :
    Matcher.clear.findKeyword ⟨0, "-aaa-bbbb-", false, false⟩ ∈
      kwTokens (lowerList (stripExceptionMarker
        (stripOptions (Filter.text ⟨0, "-aaa-bbbb-", false, false⟩)).data)) ∧
    ∀ c ∈ kwTokens (lowerList (stripExceptionMarker
        (stripOptions (Filter.text ⟨0, "-aaa-bbbb-", false, false⟩)).data)),
      bucketCount Matcher.clear
          (Matcher.clear.findKeyword ⟨0, "-aaa-bbbb-", false, false⟩) <
        bucketCount Matcher.clear c ∨
      (bucketCount Matcher.clear
          (Matcher.clear.findKeyword ⟨0, "-aaa-bbbb-", false, false⟩) =
        bucketCount Matcher.clear c ∧
        c.length ≤ (Matcher.clear.findKeyword ⟨0, "-aaa-bbbb-", false, false⟩).length) :=
  (C8_findKeyword_selection Matcher.clear ⟨0, "-aaa-bbbb-", false, false⟩).2.2
    (by decide)
    (kwTokens (lowerList (stripExceptionMarker
      (stripOptions (Filter.text ⟨0, "-aaa-bbbb-", false, false⟩)).data)))
    rfl (by decide) (by decide)

/-- C9: two distinct query tuples — the docDomain/sitekey pairs ("x",
"true s") and ("x true", "s") — produce the same delimiter-joined cache
key, and a result cached under the first tuple is returned verbatim for
the second, disagreeing with matchesAnyInternal there. -/
theorem C9_cache_key_collision :
    (("l", 0, "x", true, "true s", false) :
        String × Nat × String × Bool × String × Bool) ≠
      ("l", 0, "x true", true, "s", false) ∧
    cacheKey "l" 0 "x" true "true s" false =
      cacheKey "l" 0 "x true" true "s" false ∧
    ((((CombinedMatcher.init.add ⟨0, "ads", false, false⟩).matchesAny
        (fun _ _ _ dd _ _ => dd == "x") "l" 0 "x" true "true s" false).2.matchesAny
        (fun _ _ _ dd _ _ => dd == "x") "l" 0 "x true" true "s" false).1 =
      some ⟨0, "ads", false, false⟩) ∧
    (((CombinedMatcher.init.add ⟨0, "ads", false, false⟩).matchesAny
        (fun _ _ _ dd _ _ => dd == "x") "l" 0 "x" true "true s" false).2.matchesAnyInternal
        (fun _ _ _ dd _ _ => dd == "x") "l" 0 "x true" true "s" false = none) := by
  refine ⟨by decide, by decide, by decide, by decide⟩

end ABP
